import Mathlib

/-!
Shallow embedding of `src/0x04-more_functions_nested_loops/7-print_diagonal.c`
from the repository `Fisha25/alx-low_level_programming`.

The C function is

  void print_diagonal(int n)
  {
    int col, row;
    if (n <= 0)
      _putchar('\n');
    else
      for (col = 1; col <= n; col++)
      {
        for (row = 1; row < col; row++)
          _putchar(' ');
        _putchar('\\');
        _putchar('\n');
      }
  }

The only effect is writing characters to the output stream through
`_putchar`.  We model the stream as the list of characters written so far;
`_putchar` appends one character.  The loops are modelled by structurally
faithful recursive functions with the same counters and bounds.
-/

/-- The `_putchar` primitive: appends one character to the output stream. -/
def putchar (c : Char) (s : List Char) : List Char := s ++ [c]

/-- The inner loop `for (row = 1; row < col; row++) _putchar(' ');`,
entered at counter value `row`, run on stream `s`. -/
def innerRun (col row : Nat) (s : List Char) : List Char :=
  if row < col then innerRun col (row + 1) (putchar ' ' s) else s
termination_by col - row

/-- The outer loop `for (col = 1; col <= n; col++) { inner; _putchar('\\'); _putchar('\n'); }`,
entered at counter value `col`, run on stream `s`. -/
def outerRun (n col : Nat) (s : List Char) : List Char :=
  if col ≤ n then
    outerRun n (col + 1) (putchar '\n' (putchar '\\' (innerRun col 1 s)))
  else s
termination_by n + 1 - col

/-- `print_diagonal`, run on an arbitrary initial stream `s`:
if `n <= 0` write a single newline, otherwise run the outer loop from
`col = 1`.  In the positive branch the loop bound `n` is a positive `int`,
represented by `n.toNat`. -/
def print_diagonal_run (n : Int) (s : List Char) : List Char :=
  if n ≤ 0 then putchar '\n' s else outerRun n.toNat 1 s

/-- The characters written by `print_diagonal(n)` on a fresh stream. -/
def print_diagonal (n : Int) : List Char := print_diagonal_run n []

/-- One line of the triangle as the outer-loop body emits it for counter
value `col`: `col - 1` spaces, a backslash and a newline. -/
def lineOut (col : Nat) : List Char :=
  List.replicate (col - 1) ' ' ++ ['\\', '\n']

/-- Splitting a character stream on newline characters: `linesOf cs` is the
list of newline-free segments of `cs` (a trailing `[]` segment records that
the stream ended with a newline). -/
def linesOf : List Char → List (List Char)
  | [] => [[]]
  | c :: cs =>
    if c = '\n' then [] :: linesOf cs
    else
      match linesOf cs with
      | [] => [[c]]
      | l :: ls => (c :: l) :: ls

/-! ### Basic unfolding lemmas for the loop embeddings -/

theorem innerRun_eq (col row : Nat) (s : List Char) :
    innerRun col row s = s ++ List.replicate (col - row) ' ' := by
  induction row, s using innerRun.induct col with
  | case1 row s h ih =>
    rw [innerRun, if_pos h, ih, putchar]
    have hk : col - row = (col - (row + 1)) + 1 := by omega
    rw [hk, List.replicate_succ, List.append_assoc]
    rfl
  | case2 row s h =>
    rw [innerRun, if_neg h]
    have hk : col - row = 0 := by omega
    rw [hk, List.replicate_zero, List.append_nil]

theorem outerRun_eq (n col : Nat) (s : List Char) :
    outerRun n col s = s ++ ((List.range' col (n + 1 - col)).map lineOut).flatten := by
  induction col, s using outerRun.induct n with
  | case1 col s h ih =>
    rw [outerRun, if_pos h, ih, putchar, putchar, innerRun_eq]
    have hk : n + 1 - col = (n + 1 - (col + 1)) + 1 := by omega
    rw [hk, List.range'_succ, List.map_cons, List.flatten_cons, lineOut]
    simp [List.append_assoc]
  | case2 col s h =>
    rw [outerRun, if_neg h]
    have hk : n + 1 - col = 0 := by omega
    rw [hk, List.range']
    simp

theorem print_diagonal_run_eq (n : Int) (s : List Char) :
    print_diagonal_run n s = s ++ print_diagonal n := by
  unfold print_diagonal print_diagonal_run
  by_cases h : n ≤ 0
  · rw [if_pos h, if_pos h, putchar, putchar]
    simp
  · rw [if_neg h, if_neg h, outerRun_eq, outerRun_eq]
    simp

/-- For positive `n` the output is the concatenation of the `n` lines,
line `i` (0-indexed) being `i` spaces, a backslash and a newline. -/
theorem print_diagonal_pos (n : Int) (h : 0 < n) :
    print_diagonal n =
      ((List.range n.toNat).map fun i =>
        List.replicate i ' ' ++ ['\\', '\n']).flatten := by
  unfold print_diagonal print_diagonal_run
  rw [if_neg (by omega), outerRun_eq]
  have h1 : n.toNat + 1 - 1 = n.toNat := by omega
  have h2 : List.range' 1 n.toNat = (List.range n.toNat).map (fun x => 1 + x) := by
    rw [List.range_eq_range', List.map_add_range']
  rw [h1, h2, List.map_map]
  simp only [List.nil_append]
  congr 1
  apply List.map_congr_left
  intro i _
  simp [lineOut, Function.comp]

/-- Closed-form output of `print_diagonal`, for evaluation at concrete
inputs (the loop embeddings use well-founded recursion and do not reduce
definitionally). -/
theorem print_diagonal_eq (n : Int) :
    print_diagonal n =
      if n ≤ 0 then ['\n']
      else ((List.range n.toNat).map fun i =>
        List.replicate i ' ' ++ ['\\', '\n']).flatten := by
  by_cases h : n ≤ 0
  · rw [if_pos h]
    unfold print_diagonal print_diagonal_run
    rw [if_pos h]
    rfl
  · rw [if_neg h, print_diagonal_pos n (by omega)]

/-! ### Splitting the output stream into lines -/

theorem linesOf_line_append (l rest : List Char) (h : '\n' ∉ l) :
    linesOf (l ++ '\n' :: rest) = l :: linesOf rest := by
  induction l with
  | nil =>
    simp [linesOf]
  | cons c l ih =>
    have hc : ¬ c = '\n' := fun hcontra => h (hcontra ▸ List.mem_cons_self c l)
    have hl : '\n' ∉ l := fun hm => h (List.mem_cons_of_mem c hm)
    rw [List.cons_append, linesOf, if_neg hc, ih hl]

theorem linesOf_flatten_lines (ls : List (List Char))
    (h : ∀ l ∈ ls, '\n' ∉ l) :
    linesOf ((ls.map fun l => l ++ ['\n']).flatten) = ls ++ [[]] := by
  induction ls with
  | nil => simp [linesOf]
  | cons l ls ih =>
    rw [List.map_cons, List.flatten_cons, List.append_assoc, List.singleton_append,
      linesOf_line_append l _ (h l (List.mem_cons_self l ls)),
      ih fun l' hl' => h l' (List.mem_cons_of_mem l hl')]
    rfl

theorem newline_not_mem_line (i : Nat) :
    '\n' ∉ List.replicate i ' ' ++ ['\\'] := by
  intro hm
  rcases List.mem_append.mp hm with h1 | h2
  · exact absurd (List.eq_of_mem_replicate h1) (by decide)
  · exact absurd (List.mem_singleton.mp h2) (by decide)

/-- The output of `print_diagonal n` for positive `n`, split into lines:
`n` lines where line `i` (1-indexed, so index `i-1` in `List.range`) is
`i - 1` spaces followed by a backslash, and a trailing empty segment
because the stream ends with a newline. -/
theorem linesOf_print_diagonal (n : Int) (h : 0 < n) :
    linesOf (print_diagonal n) =
      ((List.range n.toNat).map fun i => List.replicate i ' ' ++ ['\\']) ++ [[]] := by
  rw [print_diagonal_pos n h]
  have hfun : (fun i => List.replicate i ' ' ++ ['\\', '\n']) =
      (fun l : List Char => l ++ ['\n']) ∘ fun i => List.replicate i ' ' ++ ['\\'] := by
    funext i
    simp [Function.comp]
  rw [hfun, ← List.map_map]
  apply linesOf_flatten_lines
  intro l hl
  rcases List.mem_map.mp hl with ⟨i, _, rfl⟩
  exact newline_not_mem_line i

/-! ### Character counts -/

/-- The triangular number `0 + 1 + ... + (m - 1)`, the total number of
space characters the inner loop writes over all `m` outer iterations. -/
def tri : Nat → Nat
  | 0 => 0
  | m + 1 => tri m + m

theorem two_mul_tri (m : Nat) : 2 * tri m = m * (m - 1) := by
  induction m with
  | zero => rfl
  | succ m ih =>
    cases m with
    | zero => rfl
    | succ k =>
      have hstep : 2 * tri (k + 1 + 1) = 2 * tri (k + 1) + 2 * (k + 1) := by
        rw [tri]
        ring
      have hk : (k + 1) * (k + 1 - 1) = (k + 1) * k := by simp
      have hk2 : k + 1 + 1 - 1 = k + 1 := rfl
      rw [hstep, ih, hk, hk2]
      ring

theorem tri_eq_div (m : Nat) : tri m = m * (m - 1) / 2 := by
  have h := two_mul_tri m
  omega

theorem countP_line (i : Nat) (p : Char → Bool) :
    List.countP p (List.replicate i ' ' ++ ['\\', '\n']) =
      (if p ' ' then i else 0) + ((if p '\\' then 1 else 0) + (if p '\n' then 1 else 0)) := by
  rw [List.countP_append, List.countP_eq_length_filter, List.filter_replicate]
  by_cases hs : p ' '
  · rw [if_pos hs, if_pos hs, List.length_replicate]
    simp only [List.countP_cons, List.countP_nil]
    omega
  · rw [if_neg hs, if_neg hs, List.length_nil]
    simp only [List.countP_cons, List.countP_nil]
    omega

theorem countP_diagonal_flatten (m : Nat) (p : Char → Bool) :
    List.countP p (((List.range m).map fun i =>
        List.replicate i ' ' ++ ['\\', '\n']).flatten) =
      (if p ' ' then tri m else 0) +
        m * ((if p '\\' then 1 else 0) + (if p '\n' then 1 else 0)) := by
  induction m with
  | zero => simp [tri]
  | succ m ih =>
    rw [List.range_succ, List.map_append, List.flatten_append, List.countP_append, ih]
    simp only [List.map_singleton, List.flatten_cons, List.flatten_nil, List.append_nil,
      countP_line, tri]
    by_cases h1 : p ' ' <;> by_cases h2 : p '\\' <;> by_cases h3 : p '\n' <;>
      simp [h1, h2, h3] <;> omega

/-! ### A fuel-bounded interpreter for the two loops -/

/-- The inner loop again, but spending one unit of fuel per iteration and
returning `none` when the fuel runs out before the loop guard fails. -/
def innerRunF : Nat → Nat → Nat → List Char → Option (List Char)
  | fuel, col, row, s =>
    if row < col then
      match fuel with
      | 0 => none
      | f + 1 => innerRunF f col (row + 1) (putchar ' ' s)
    else some s

/-- The outer loop with fuel: `fuel` units for its own iterations and a
fresh budget `ifuel` handed to the inner loop on every iteration. -/
def outerRunF : Nat → Nat → Nat → Nat → List Char → Option (List Char)
  | fuel, ifuel, n, col, s =>
    if col ≤ n then
      match fuel with
      | 0 => none
      | f + 1 =>
        match innerRunF ifuel col 1 s with
        | none => none
        | some s1 => outerRunF f ifuel n (col + 1) (putchar '\n' (putchar '\\' s1))
    else some s

/-- `print_diagonal` run under the fuel-bounded interpreter. -/
def print_diagonal_runF (fuel ifuel : Nat) (n : Int) (s : List Char) :
    Option (List Char) :=
  if n ≤ 0 then some (putchar '\n' s) else outerRunF fuel ifuel n.toNat 1 s

theorem innerRunF_complete (fuel col : Nat) :
    ∀ row s, col - row ≤ fuel →
      innerRunF fuel col row s = some (innerRun col row s) := by
  induction fuel with
  | zero =>
    intro row s h
    have hge : ¬ row < col := by omega
    rw [innerRunF, if_neg hge, innerRun, if_neg hge]
  | succ f ih =>
    intro row s h
    by_cases hlt : row < col
    · rw [innerRunF, if_pos hlt, innerRun, if_pos hlt]
      exact ih (row + 1) (putchar ' ' s) (by omega)
    · rw [innerRunF, if_neg hlt, innerRun, if_neg hlt]

theorem outerRunF_complete (fuel ifuel n : Nat) (hin : n ≤ ifuel) :
    ∀ col s, n + 1 - col ≤ fuel →
      outerRunF fuel ifuel n col s = some (outerRun n col s) := by
  induction fuel with
  | zero =>
    intro col s h
    have hge : ¬ col ≤ n := by omega
    rw [outerRunF, if_neg hge, outerRun, if_neg hge]
  | succ f ih =>
    intro col s h
    by_cases hle : col ≤ n
    · rw [outerRunF, if_pos hle, outerRun, if_pos hle,
        innerRunF_complete ifuel col 1 s (by omega)]
      exact ih (col + 1) _ (by omega)
    · rw [outerRunF, if_neg hle, outerRun, if_neg hle]

/-! ### The claims -/

/-- Claim C1: for every integer `n > 0`, `print_diagonal n` writes exactly
`n` newline-terminated lines, and line `i` (1-indexed, i.e. index `i - 1`
in the list of lines) is `i - 1` space characters followed by one
backslash; the trailing `[]` segment of `linesOf` records that the stream
ends with the final line's newline. -/
theorem C1_lines_exact (n : Int) (h : 0 < n) :
    linesOf (print_diagonal n) =
      ((List.range n.toNat).map fun i => List.replicate i ' ' ++ ['\\']) ++ [[]] ∧
    ((List.range n.toNat).map fun i => List.replicate i ' ' ++ ['\\']).length = n.toNat := by
  refine ⟨linesOf_print_diagonal n h, ?_⟩
  simp

theorem C1_lines_exact_witness :
    (0 : Int) < 3 ∧
      (linesOf (print_diagonal 3) =
        ((List.range (3 : Int).toNat).map fun i => List.replicate i ' ' ++ ['\\']) ++ [[]] ∧
      ((List.range (3 : Int).toNat).map fun i => List.replicate i ' ' ++ ['\\']).length =
        (3 : Int).toNat) :=
  ⟨by decide, C1_lines_exact 3 (by decide)⟩

/-- Claim C2: for every integer `n ≤ 0`, `print_diagonal n` writes exactly
one newline character and nothing else. -/
theorem C2_nonpos_newline (n : Int) (h : n ≤ 0) : print_diagonal n = ['\n'] := by
  rw [print_diagonal_eq, if_pos h]

theorem C2_nonpos_newline_witness :
    (-5 : Int) ≤ 0 ∧ print_diagonal (-5) = ['\n'] :=
  ⟨by decide, C2_nonpos_newline (-5) (by decide)⟩

/-- Claim C3, counterexample: at `n = 2` the claimed count of non-newline
characters, `n + 2 * (1 + 2 + ... + (n - 1)) = 2 + 2 * 1 = 4`, is wrong:
the output `"\\\n \\\n"` has `3` non-newline characters (one backslash on
each of the two lines plus one space). -/
theorem C3_counterexample :
    ¬ List.countP (fun c => !(c == '\n')) (print_diagonal 2) = 2 + 2 * 1 := by
  rw [print_diagonal_eq]
  decide

/-- Claim C3 as amended: for every integer `n > 0` the number of
non-newline characters written is `n + (1 + 2 + ... + (n - 1))
= n + n * (n - 1) / 2` (not `n + 2 * (1 + ... + (n - 1))`), and the number
of newline characters written is `n`. -/
theorem C3_char_counts (n : Int) (h : 0 < n) :
    List.countP (fun c => !(c == '\n')) (print_diagonal n) =
      n.toNat + n.toNat * (n.toNat - 1) / 2 ∧
    List.countP (fun c => c == '\n') (print_diagonal n) = n.toNat := by
  rw [print_diagonal_pos n h]
  constructor
  · rw [countP_diagonal_flatten]
    simp [tri_eq_div]
    omega
  · rw [countP_diagonal_flatten]
    simp

theorem C3_char_counts_witness :
    (0 : Int) < 2 ∧
      (List.countP (fun c => !(c == '\n')) (print_diagonal 2) =
        (2 : Int).toNat + (2 : Int).toNat * ((2 : Int).toNat - 1) / 2 ∧
      List.countP (fun c => c == '\n') (print_diagonal 2) = (2 : Int).toNat) :=
  ⟨by decide, C3_char_counts 2 (by decide)⟩

/-- Claim C4: for every integer `n > 0` and every `i` with `1 ≤ i ≤ n`,
row `i` of the output (index `i - 1` in `linesOf`) has exactly `i`
characters before its terminating newline. -/
theorem C4_row_length (n : Int) (i : Nat) (h : 0 < n) (h1 : 1 ≤ i)
    (h2 : (i : Int) ≤ n) :
    ((linesOf (print_diagonal n)).getD (i - 1) []).length = i := by
  rw [linesOf_print_diagonal n h]
  have hlt : i - 1 < ((List.range n.toNat).map fun j =>
      List.replicate j ' ' ++ ['\\']).length := by
    simp
    omega
  rw [List.getD_append _ _ _ _ hlt, List.getD_eq_getElem _ _ hlt]
  simp
  omega

theorem C4_row_length_witness :
    (0 : Int) < 3 ∧ 1 ≤ 2 ∧ ((2 : Nat) : Int) ≤ 3 ∧
      ((linesOf (print_diagonal 3)).getD (2 - 1) []).length = 2 :=
  ⟨by decide, by decide, by decide, C4_row_length 3 2 (by decide) (by decide) (by decide)⟩

/-- Claim C5: the outputs at `n = 1`, `n = 3` and `n = 4` are exactly the
concrete character sequences given in the spec. -/
theorem C5_concrete_outputs :
    print_diagonal 1 = ['\\', '\n'] ∧
    print_diagonal 3 = ['\\', '\n', ' ', '\\', '\n', ' ', ' ', '\\', '\n'] ∧
    print_diagonal 4 =
      ['\\', '\n', ' ', '\\', '\n', ' ', ' ', '\\', '\n', ' ', ' ', ' ', '\\', '\n'] := by
  refine ⟨?_, ?_, ?_⟩ <;> rw [print_diagonal_eq] <;> decide

/-- Claim C6: the output is a deterministic function of `n` alone.  Running
on any initial stream `s` appends exactly `print_diagonal n`, so the
characters written do not depend on the stream's prior contents, and two
calls with the same `n` on any two streams write identical sequences. -/
theorem C6_deterministic (n : Int) (s t : List Char) :
    print_diagonal_run n s = s ++ print_diagonal n ∧
    (print_diagonal_run n s).drop s.length =
      (print_diagonal_run n t).drop t.length := by
  refine ⟨print_diagonal_run_eq n s, ?_⟩
  rw [print_diagonal_run_eq, print_diagonal_run_eq, List.drop_left, List.drop_left]

/-- Claim C7: `print_diagonal` has no failure mode: for every integer `n`
(negative, zero, or positive) and every stream `s`, the call produces a
result whose only effect is appending characters to `s`. -/
theorem C7_no_failure (n : Int) (s : List Char) :
    ∃ written : List Char, print_diagonal_run n s = s ++ written :=
  ⟨print_diagonal n, print_diagonal_run_eq n s⟩

/-- Claim C8: `print_diagonal` terminates, its loops bounded by `n`: under
the fuel-bounded interpreter, `n + 1` units of outer fuel and `n` units of
inner fuel per iteration suffice for every integer `n` (the `n ≤ 0` branch
writes a single newline without touching the loops at all). -/
theorem C8_fuel_terminates (n : Int) (s : List Char) :
    print_diagonal_runF (n.toNat + 1) n.toNat n s = some (print_diagonal_run n s) := by
  unfold print_diagonal_runF print_diagonal_run
  by_cases h : n ≤ 0
  · rw [if_pos h, if_pos h]
  · rw [if_neg h, if_neg h]
    exact outerRunF_complete (n.toNat + 1) n.toNat n.toNat le_rfl 1 s (by omega)

/-- Claim C9: for every integer `n ≥ 1`, the output at `n + 1` extends the
output at `n` by exactly one additional line of `n` spaces, a backslash
and a newline (so the former has the latter as a prefix). -/
theorem C9_output_monotone (n : Int) (h : 1 ≤ n) :
    print_diagonal (n + 1) =
      print_diagonal n ++ (List.replicate n.toNat ' ' ++ ['\\', '\n']) := by
  rw [print_diagonal_pos n (by omega), print_diagonal_pos (n + 1) (by omega)]
  have hm : (n + 1).toNat = n.toNat + 1 := by omega
  rw [hm, List.range_succ, List.map_append, List.flatten_append]
  simp

theorem C9_output_monotone_witness :
    (1 : Int) ≤ 1 ∧
      print_diagonal 2 =
        print_diagonal 1 ++ (List.replicate (1 : Int).toNat ' ' ++ ['\\', '\n']) :=
  ⟨by decide, C9_output_monotone 1 (by decide)⟩

/-- Claim C10: for every integer `n`, the output of `print_diagonal n` is
non-empty and its final character is a newline, in both the `n ≤ 0` branch
and the `n > 0` branch. -/
theorem C10_ends_newline (n : Int) :
    print_diagonal n ≠ [] ∧ (print_diagonal n).getLast? = some '\n' := by
  by_cases h : n ≤ 0
  · rw [print_diagonal_eq, if_pos h]
    exact ⟨by decide, rfl⟩
  · rw [print_diagonal_pos n (by omega)]
    have hm : n.toNat = (n.toNat - 1) + 1 := by omega
    rw [hm, List.range_succ, List.map_append, List.flatten_append]
    constructor
    · simp
    · rw [List.getLast?_append]
      simp
